import Mathlib

/-!
Verification of the CFR (Change Failure Rate) tag-classification core
(`src/lib/cfr.ts`, exposed as `computeReleaseCfr`) against its
specification.  The TypeScript source is shallowly embedded below:

* JS `number` values in this core are tag counts and 4-decimal rates, so
  they are modelled as `Nat` (counts, parsed digit strings) and `ℚ`
  (rates).  `Number.prototype.toFixed(4)` followed by `Number(...)` is
  modelled as exact rational rounding to 4 decimal places with ties
  rounded away from zero (the ECMAScript `toFixed` rule: choose the
  integer n minimising |n / 10^4 - |x||, ties to the larger n, with the
  sign split off first).
* The caller-supplied `RegExp` is abstracted as an arbitrary acceptance
  predicate `String → Bool`; the two concrete anchored patterns of the
  source (`SEMVER_PREFIX` and `DEFAULT_VERSION_PATTERN`) are embedded as
  executable character-level matchers.  Both regexes take greedy digit
  runs (`\d+`) followed by a non-digit requirement (`.`, `[-+]` or end),
  so maximal-munch scanning is equivalent to backtracking: a shorter
  digit run is necessarily followed by a digit, which none of the
  follow-set characters accept.
* The JS `Map<string, Group>` keyed by `` `${major}.${minor}` `` is
  modelled as an insertion-ordered association list keyed by the pair
  `(major, minor)`; for the integers produced by the parser the string
  key `"a.b"` is in bijection with the pair, and `Map.set` on an
  existing key updates the value in place, which `setGroup` reproduces.
* `Array.prototype.sort(cmp)` is required by ECMAScript to be a stable
  sort consistent with the comparator, which determines its output
  uniquely; it is embedded as `List.insertionSort` (stable by
  construction) on the preorder the numeric comparator encodes.
-/

namespace Cfr

/-- `ParsedTag` record of `cfr.ts`: one accepted tag. -/
structure ParsedTag where
  name : String
  major : Nat
  minor : Nat
  patch : Nat
deriving DecidableEq

/-- `CfrRelease` record of `cfr.ts`: one published release and its patches. -/
structure CfrRelease where
  version : String
  releaseTag : String
  patchTags : List String
  totalTags : Nat
  failedTags : Nat
  changeFailureRate : ℚ
deriving DecidableEq

/-- `RepoCfrResult` record of `cfr.ts`: one repository's full computation. -/
structure RepoCfrResult where
  totalReleases : Nat
  totalPatchFailures : Nat
  changeFailureRate : ℚ
  releases : List CfrRelease
deriving DecidableEq

/-- Digits-to-number conversion performed by `Number(match[i])` on a
captured `\d+` group (decimal, leading zeros allowed). -/
def digitsToNat (ds : List Char) : Nat :=
  ds.foldl (fun n c => 10 * n + (c.toNat - '0'.toNat)) 0

/-- Body of the fixed structural regex `^v?(\d+)\.(\d+)\.(\d+)` (named
`SEMVER_PREFIX` in `cfr.ts`) after the optional leading `v`: three greedy
digit runs separated by literal dots, anchored at the start only. -/
def semverCore (cs : List Char) : Option (Nat × Nat × Nat) :=
  let s1 := cs.span Char.isDigit
  if s1.1 = [] then none else
  match s1.2 with
  | '.' :: r2 =>
    let s2 := r2.span Char.isDigit
    if s2.1 = [] then none else
    match s2.2 with
    | '.' :: r4 =>
      let s3 := r4.span Char.isDigit
      if s3.1 = [] then none else
      some (digitsToNat s1.1, digitsToNat s2.1, digitsToNat s3.1)
    | _ => none
  | _ => none

/-- `tag.match(SEMVER_PREFIX)`: the optional `v` is consumed when present
(backtracking to the no-`v` branch cannot succeed because `v` is not a
digit), then the dotted numeric triple is extracted from the prefix. -/
def semverPrefixMatch (s : String) : Option (Nat × Nat × Nat) :=
  match s.data with
  | 'v' :: rest => semverCore rest
  | cs => semverCore cs

/-- A character matched by an unflagged JS `.`: anything but the four
ECMAScript line terminators. -/
def jsDotMatch (c : Char) : Bool :=
  !(c == '\n' || c == '\r' || c == Char.ofNat 0x2028 || c == Char.ofNat 0x2029)

/-- The optional suffix `(?:[-+].+)?$` of the default pattern: either the
end of the string, or `-`/`+` followed by at least one `.`-matchable
character running to the end. -/
def versionSuffixOk : List Char → Bool
  | [] => true
  | c :: rest => (c == '-' || c == '+') && !rest.isEmpty && rest.all jsDotMatch

/-- Body of `DEFAULT_VERSION_PATTERN` after the optional leading `v`:
`\d+\.\d+\.\d+(?:[-+].+)?$`. -/
def defaultCore (cs : List Char) : Bool :=
  let s1 := cs.span Char.isDigit
  if s1.1 = [] then false else
  match s1.2 with
  | '.' :: r2 =>
    let s2 := r2.span Char.isDigit
    if s2.1 = [] then false else
    match s2.2 with
    | '.' :: r4 =>
      let s3 := r4.span Char.isDigit
      if s3.1 = [] then false else versionSuffixOk s3.2
    | _ => false
  | _ => false

/-- `DEFAULT_VERSION_PATTERN = ^v?\d+\.\d+\.\d+(?:[-+].+)?$` from
`scripts/compute-cfr.ts`, compiled with `new RegExp` (no flags), as an
acceptance predicate on whole tag strings. -/
def DEFAULT_VERSION_PATTERN (s : String) : Bool :=
  match s.data with
  | 'v' :: rest => defaultCore rest
  | cs => defaultCore cs

/-- `parseSemverTag` of `cfr.ts`: test the acceptance pattern first, then
extract the structural `v?major.minor.patch` prefix; `none` models the
`null` rejection result. -/
def parseSemverTag (tag : String) (versionRegex : String → Bool) : Option ParsedTag :=
  if versionRegex tag then
    match semverPrefixMatch tag with
    | some (a, b, c) => some { name := tag, major := a, minor := b, patch := c }
    | none => none
  else none

/-- ECMAScript `toFixed(4)` (followed by `Number(...)`) as exact rational
rounding: sign split off, then the integer numerator over 10^4 nearest to
the value, ties to the larger integer (`round` is round-half-up). -/
def round4 (q : ℚ) : ℚ :=
  if 0 ≤ q then ((round (q * 10000) : ℤ) : ℚ) / 10000
  else -(((round (-q * 10000) : ℤ) : ℚ) / 10000)

/-- `rate` of `cfr.ts`: `total <= 0` yields `0`, otherwise
`Number((failed / total).toFixed(4))`. -/
def rate (failed total : ℚ) : ℚ :=
  if total ≤ 0 then 0 else round4 (failed / total)

/-- The intermediate group record of `computeReleaseCfr`:
`{ major, minor, releaseTag: string | null, patchTags: ParsedTag[] }`. -/
structure RelGroup where
  major : Nat
  minor : Nat
  releaseTag : Option String
  patchTags : List ParsedTag
deriving DecidableEq

/-- The JS map key `` `${tag.major}.${tag.minor}` `` as the pair it
encodes. -/
def tagKey (t : ParsedTag) : Nat × Nat := (t.major, t.minor)

/-- Insertion-ordered association list standing for the JS
`Map<string, Group>`. -/
abbrev GroupMap := List ((Nat × Nat) × RelGroup)

/-- `groups.get(key)`. -/
def lookupGroup : GroupMap → Nat × Nat → Option RelGroup
  | [], _ => none
  | (k, g) :: gs, k' => if k = k' then some g else lookupGroup gs k'

/-- `groups.set(key, group)`: replace in place when the key is present,
append otherwise (JS `Map` keeps the original insertion position). -/
def setGroup : GroupMap → Nat × Nat → RelGroup → GroupMap
  | [], k, g => [(k, g)]
  | (k', g') :: gs, k, g =>
    if k' = k then (k, g) :: gs else (k', g') :: setGroup gs k g

/-- The body of the grouping loop for one tag: `patch === 0` keeps the
first release tag (`group.releaseTag ?? tag.name`), anything else is
pushed onto `patchTags`. -/
def applyTag (g : RelGroup) (t : ParsedTag) : RelGroup :=
  if t.patch = 0 then { g with releaseTag := some (g.releaseTag.getD t.name) }
  else { g with patchTags := g.patchTags ++ [t] }

/-- The fresh group created on first sight of a key:
`{ major, minor, releaseTag: null, patchTags: [] }`. -/
def freshGroup (t : ParsedTag) : RelGroup :=
  { major := t.major, minor := t.minor, releaseTag := none, patchTags := [] }

/-- One iteration of the `for (const tag of parsedTags)` loop. -/
def stepGroup (gs : GroupMap) (t : ParsedTag) : GroupMap :=
  setGroup gs (tagKey t) (applyTag ((lookupGroup gs (tagKey t)).getD (freshGroup t)) t)

/-- The whole grouping loop. -/
def buildGroups (ts : List ParsedTag) : GroupMap :=
  ts.foldl stepGroup []

/-- The group comparator
`(a, b) => a.major !== b.major ? a.major - b.major : a.minor - b.minor`
as the total preorder it sorts by: lexicographic on `(major, minor)`. -/
def groupLE (a b : RelGroup) : Prop :=
  a.major < b.major ∨ (a.major = b.major ∧ a.minor ≤ b.minor)

instance : DecidableRel groupLE := fun a b => by
  unfold groupLE; infer_instance

instance : IsTotal RelGroup groupLE where
  total a b := by unfold groupLE; omega

instance : IsTrans RelGroup groupLE where
  trans a b c := by unfold groupLE; omega

/-- The patch comparator `(a, b) => a.patch - b.patch` as a preorder. -/
def patchLE (a b : ParsedTag) : Prop := a.patch ≤ b.patch

instance : DecidableRel patchLE := fun a b => by
  unfold patchLE; infer_instance

instance : IsTotal ParsedTag patchLE where
  total a b := Nat.le_total a.patch b.patch

instance : IsTrans ParsedTag patchLE where
  trans _ _ _ h h' := Nat.le_trans h h'

/-- `` `${group.major}.${group.minor}.0` ``. -/
def versionString (m n : Nat) : String :=
  toString m ++ "." ++ toString n ++ ".0"

/-- `group.patchTags.sort((a, b) => a.patch - b.patch)`: the unique
stable sort by patch number. -/
def sortedPatchTags (g : RelGroup) : List ParsedTag :=
  List.insertionSort patchLE g.patchTags

/-- The `.map((group) => {...})` body turning one qualifying group into a
`CfrRelease`. -/
def mkRelease (g : RelGroup) : CfrRelease :=
  let patchTags := (sortedPatchTags g).map ParsedTag.name
  let failedTags := patchTags.length
  let totalTags := failedTags + 1
  { version := versionString g.major g.minor
    releaseTag := g.releaseTag.getD (versionString g.major g.minor)
    patchTags := patchTags
    totalTags := totalTags
    failedTags := failedTags
    changeFailureRate := rate (failedTags : ℚ) (totalTags : ℚ) }

/-- `Array.from(groups.values()).filter((group) => group.releaseTag)`
followed by the `(major, minor)` sort.  Every stored `releaseTag` is a
tag name that matched the structural pattern, hence nonempty, so JS
truthiness coincides with `isSome`. -/
def qualifyingSortedGroups (ts : List ParsedTag) : List RelGroup :=
  List.insertionSort groupLE
    (((buildGroups ts).map Prod.snd).filter (fun g => g.releaseTag.isSome))

/-- The `tags.map(parseSemverTag).filter(Boolean)` stage of
`computeReleaseCfr`. -/
def parsedTagsOf (tags : List String) (versionRegex : String → Bool) : List ParsedTag :=
  tags.filterMap (fun tag => parseSemverTag tag versionRegex)

/-- The tail of `computeReleaseCfr` after the grouping stage: project the
qualifying sorted groups into releases and fold the totals. -/
def assembleResult (groups : List RelGroup) : RepoCfrResult :=
  let releases := groups.map mkRelease
  let totalReleases := releases.length
  let totalPatchFailures := releases.foldl (fun sum r => sum + r.failedTags) 0
  let overallTotalTags := totalReleases + totalPatchFailures
  { totalReleases := totalReleases
    totalPatchFailures := totalPatchFailures
    changeFailureRate := rate (totalPatchFailures : ℚ) (overallTotalTags : ℚ)
    releases := releases }

/-- `computeReleaseCfr` of `cfr.ts`. -/
def computeReleaseCfr (tags : List String) (versionRegex : String → Bool) : RepoCfrResult :=
  assembleResult (qualifyingSortedGroups (parsedTagsOf tags versionRegex))

/-! ### Characterisation of the grouping fold -/

/-- Folding a run of tags of one key into a group. -/
def extendG (g : RelGroup) (ts : List ParsedTag) : RelGroup :=
  ts.foldl applyTag g

/-- The tags of one `(major, minor)` key, in input order. -/
def keyFilter (ts : List ParsedTag) (k : Nat × Nat) : List ParsedTag :=
  ts.filter (fun t => tagKey t == k)

/-- The group value the loop ends up storing under key `k`. -/
def groupOf (ts : List ParsedTag) (k : Nat × Nat) : RelGroup :=
  extendG ⟨k.1, k.2, none, []⟩ (keyFilter ts k)

theorem applyTag_major (g : RelGroup) (t : ParsedTag) : (applyTag g t).major = g.major := by
  unfold applyTag; split <;> rfl

theorem applyTag_minor (g : RelGroup) (t : ParsedTag) : (applyTag g t).minor = g.minor := by
  unfold applyTag; split <;> rfl

theorem extendG_major (ts : List ParsedTag) : ∀ g : RelGroup, (extendG g ts).major = g.major := by
  induction ts with
  | nil => intro g; rfl
  | cons t ts ih => intro g; simpa [extendG, List.foldl_cons, applyTag_major] using
      (ih (applyTag g t)).trans (applyTag_major g t)

theorem extendG_minor (ts : List ParsedTag) : ∀ g : RelGroup, (extendG g ts).minor = g.minor := by
  induction ts with
  | nil => intro g; rfl
  | cons t ts ih => intro g; simpa [extendG, List.foldl_cons, applyTag_minor] using
      (ih (applyTag g t)).trans (applyTag_minor g t)

theorem extendG_releaseTag (ts : List ParsedTag) : ∀ g : RelGroup,
    (extendG g ts).releaseTag =
      g.releaseTag.or (((ts.filter (fun t => t.patch == 0)).head?).map ParsedTag.name) := by
  induction ts with
  | nil =>
    intro g
    show g.releaseTag = g.releaseTag.or (((([] : List ParsedTag).filter
      (fun t => t.patch == 0)).head?).map ParsedTag.name)
    cases g.releaseTag <;> rfl
  | cons t ts ih =>
    intro g
    by_cases hp : t.patch = 0
    · have h1 : extendG g (t :: ts) = extendG (applyTag g t) ts := rfl
      rw [h1, ih]
      have h2 : (applyTag g t).releaseTag = some (g.releaseTag.getD t.name) := by
        simp [applyTag, hp]
      rw [h2]
      have h3 : (t :: ts).filter (fun t => t.patch == 0) =
          t :: ts.filter (fun t => t.patch == 0) := by
        simp [List.filter_cons, hp]
      rw [h3]
      cases g.releaseTag <;> simp [Option.getD, Option.or]
    · have h1 : extendG g (t :: ts) = extendG (applyTag g t) ts := rfl
      rw [h1, ih]
      have h2 : (applyTag g t).releaseTag = g.releaseTag := by
        simp [applyTag, hp]
      rw [h2]
      have h3 : (t :: ts).filter (fun t => t.patch == 0) =
          ts.filter (fun t => t.patch == 0) := by
        simp [List.filter_cons, hp]
      rw [h3]

theorem extendG_patchTags (ts : List ParsedTag) : ∀ g : RelGroup,
    (extendG g ts).patchTags = g.patchTags ++ ts.filter (fun t => t.patch != 0) := by
  induction ts with
  | nil => intro g; simp [extendG]
  | cons t ts ih =>
    intro g
    have h1 : extendG g (t :: ts) = extendG (applyTag g t) ts := rfl
    rw [h1, ih]
    by_cases hp : t.patch = 0
    · have h2 : (applyTag g t).patchTags = g.patchTags := by simp [applyTag, hp]
      rw [h2]
      have h3 : (t :: ts).filter (fun t => t.patch != 0) =
          ts.filter (fun t => t.patch != 0) := by
        simp [List.filter_cons, hp]
      rw [h3]
    · have h2 : (applyTag g t).patchTags = g.patchTags ++ [t] := by simp [applyTag, hp]
      rw [h2]
      have h3 : (t :: ts).filter (fun t => t.patch != 0) =
          t :: ts.filter (fun t => t.patch != 0) := by
        simp [List.filter_cons, hp]
      rw [h3, List.append_assoc]
      rfl

theorem lookupGroup_setGroup_self (gs : GroupMap) (k : Nat × Nat) (g : RelGroup) :
    lookupGroup (setGroup gs k g) k = some g := by
  induction gs with
  | nil => simp [setGroup, lookupGroup]
  | cons p gs ih =>
    obtain ⟨k', g'⟩ := p
    by_cases h : k' = k
    · simp [setGroup, h, lookupGroup]
    · simp [setGroup, h, lookupGroup, ih]

theorem lookupGroup_setGroup_ne (gs : GroupMap) {k k' : Nat × Nat} (g : RelGroup)
    (h : k' ≠ k) : lookupGroup (setGroup gs k g) k' = lookupGroup gs k' := by
  have h' : k ≠ k' := Ne.symm h
  induction gs with
  | nil => simp [setGroup, lookupGroup, h']
  | cons p gs ih =>
    obtain ⟨k'', g''⟩ := p
    by_cases hk : k'' = k
    · subst hk
      simp [setGroup, lookupGroup, h']
    · simp only [setGroup, if_neg hk, lookupGroup, ih]

theorem setGroup_keys (gs : GroupMap) (k : Nat × Nat) (g : RelGroup) :
    (setGroup gs k g).map Prod.fst =
      if k ∈ gs.map Prod.fst then gs.map Prod.fst else gs.map Prod.fst ++ [k] := by
  induction gs with
  | nil => simp [setGroup]
  | cons p gs ih =>
    obtain ⟨k', g'⟩ := p
    by_cases h : k' = k
    · simp [setGroup, h]
    · have hne : ¬ k = k' := fun hc => h hc.symm
      simp only [setGroup, if_neg h, List.map_cons, List.mem_cons, hne, false_or]
      rw [ih]
      split <;> simp

theorem mem_of_lookupGroup_eq_some {gs : GroupMap} {k : Nat × Nat} {g : RelGroup}
    (h : lookupGroup gs k = some g) : (k, g) ∈ gs := by
  induction gs with
  | nil => simp [lookupGroup] at h
  | cons p gs ih =>
    obtain ⟨k', g'⟩ := p
    by_cases hk : k' = k
    · subst hk
      simp [lookupGroup] at h
      simp [h]
    · simp [lookupGroup, hk] at h
      exact List.mem_cons_of_mem _ (ih h)

theorem lookupGroup_eq_some_of_mem {gs : GroupMap} {k : Nat × Nat} {g : RelGroup}
    (h : (k, g) ∈ gs) (hnd : (gs.map Prod.fst).Nodup) : lookupGroup gs k = some g := by
  induction gs with
  | nil => simp at h
  | cons p gs ih =>
    obtain ⟨k', g'⟩ := p
    rw [List.map_cons] at hnd
    have hnd' := List.nodup_cons.1 hnd
    rcases List.mem_cons.1 h with h1 | h1
    · rw [Prod.mk.injEq] at h1
      obtain ⟨hk, hg⟩ := h1
      subst hk
      subst hg
      simp [lookupGroup]
    · have hkk : k' ≠ k := by
        intro hc
        apply hnd'.1
        rw [hc]
        exact List.mem_map.2 ⟨(k, g), h1, rfl⟩
      simp only [lookupGroup, if_neg hkk]
      exact ih h1 hnd'.2

theorem foldl_stepGroup_lookup (ts : List ParsedTag) :
    ∀ (gs : GroupMap) (k : Nat × Nat),
    lookupGroup (ts.foldl stepGroup gs) k =
      match lookupGroup gs k with
      | some g => some (extendG g (keyFilter ts k))
      | none =>
        if k ∈ ts.map tagKey then some (extendG ⟨k.1, k.2, none, []⟩ (keyFilter ts k))
        else none := by
  induction ts with
  | nil =>
    intro gs k
    cases h : lookupGroup gs k <;> simp [keyFilter, extendG, h]
  | cons t ts ih =>
    intro gs k
    have hfold : (t :: ts).foldl stepGroup gs = ts.foldl stepGroup (stepGroup gs t) := rfl
    rw [hfold, ih]
    by_cases hk : tagKey t = k
    · have hset : lookupGroup (stepGroup gs t) k =
          some (applyTag ((lookupGroup gs k).getD (freshGroup t)) t) := by
        unfold stepGroup
        rw [hk, lookupGroup_setGroup_self]
      rw [hset]
      have hkf : keyFilter (t :: ts) k = t :: keyFilter ts k := by
        simp [keyFilter, List.filter_cons, hk]
      have hxG : ∀ g : RelGroup, extendG (applyTag g t) (keyFilter ts k) =
          extendG g (keyFilter (t :: ts) k) := by
        intro g; rw [hkf]; rfl
      cases hg : lookupGroup gs k with
      | some g => simp only [Option.getD, hxG]
      | none =>
        have hmem : k ∈ (t :: ts).map tagKey := by simp [hk]
        have hfresh : freshGroup t = (⟨k.1, k.2, none, []⟩ : RelGroup) := by
          subst hk
          rfl
        simp only [Option.getD, hfresh, hxG, if_pos hmem]
    · have hset : lookupGroup (stepGroup gs t) k = lookupGroup gs k := by
        unfold stepGroup
        exact lookupGroup_setGroup_ne gs _ (fun hc => hk hc.symm)
      rw [hset]
      have hkf : keyFilter (t :: ts) k = keyFilter ts k := by
        unfold keyFilter
        rw [List.filter_cons, if_neg (by simp [hk])]
      have hmem : k ∈ (t :: ts).map tagKey ↔ k ∈ ts.map tagKey := by
        rw [List.map_cons, List.mem_cons]
        constructor
        · rintro (hc | hc)
          · exact absurd hc.symm hk
          · exact hc
        · exact Or.inr
      cases hg : lookupGroup gs k with
      | some g => rw [hkf]
      | none =>
        rw [hkf]
        exact if_congr hmem.symm rfl rfl

theorem lookupGroup_buildGroups (ts : List ParsedTag) (k : Nat × Nat) :
    lookupGroup (buildGroups ts) k =
      if k ∈ ts.map tagKey then some (groupOf ts k) else none := by
  have h := foldl_stepGroup_lookup ts [] k
  simpa [buildGroups, lookupGroup, groupOf] using h

/-- First-occurrence accumulation of keys, as performed by `Map.set`. -/
def insKey (ks : List (Nat × Nat)) (k : Nat × Nat) : List (Nat × Nat) :=
  if k ∈ ks then ks else ks ++ [k]

theorem foldl_stepGroup_keys (ts : List ParsedTag) : ∀ gs : GroupMap,
    (ts.foldl stepGroup gs).map Prod.fst =
      ts.foldl (fun ks t => insKey ks (tagKey t)) (gs.map Prod.fst) := by
  induction ts with
  | nil => intro gs; rfl
  | cons t ts ih =>
    intro gs
    have h1 : (t :: ts).foldl stepGroup gs = ts.foldl stepGroup (stepGroup gs t) := rfl
    rw [h1, ih]
    have h2 : (stepGroup gs t).map Prod.fst = insKey (gs.map Prod.fst) (tagKey t) := by
      unfold stepGroup insKey
      rw [setGroup_keys]
    rw [h2]
    rfl

theorem insKey_nodup {ks : List (Nat × Nat)} (h : ks.Nodup) (k : Nat × Nat) :
    (insKey ks k).Nodup := by
  unfold insKey
  split
  · exact h
  · next hmem =>
    rw [List.nodup_append]
    refine ⟨h, List.nodup_singleton _, ?_⟩
    intro a ha hb
    rw [List.mem_singleton] at hb
    subst hb
    exact hmem ha

theorem foldl_insKey_nodup (ts : List ParsedTag) : ∀ ks : List (Nat × Nat), ks.Nodup →
    (ts.foldl (fun ks t => insKey ks (tagKey t)) ks).Nodup := by
  induction ts with
  | nil => intro ks h; exact h
  | cons t ts ih => intro ks h; exact ih _ (insKey_nodup h (tagKey t))

theorem buildGroups_keys_nodup (ts : List ParsedTag) :
    ((buildGroups ts).map Prod.fst).Nodup := by
  rw [show buildGroups ts = ts.foldl stepGroup [] from rfl, foldl_stepGroup_keys]
  exact foldl_insKey_nodup _ _ (by simp)

theorem groupOf_major (ts : List ParsedTag) (k : Nat × Nat) : (groupOf ts k).major = k.1 :=
  extendG_major _ _

theorem groupOf_minor (ts : List ParsedTag) (k : Nat × Nat) : (groupOf ts k).minor = k.2 :=
  extendG_minor _ _

theorem groupOf_releaseTag (ts : List ParsedTag) (k : Nat × Nat) :
    (groupOf ts k).releaseTag =
      ((ts.filter (fun t => tagKey t == k && t.patch == 0)).head?).map ParsedTag.name := by
  unfold groupOf
  rw [extendG_releaseTag]
  show Option.or none _ = _
  rw [Option.none_or]
  unfold keyFilter
  rw [List.filter_filter]
  rw [List.filter_congr (fun t _ => by rw [Bool.and_comm])]

theorem groupOf_patchTags (ts : List ParsedTag) (k : Nat × Nat) :
    (groupOf ts k).patchTags = ts.filter (fun t => tagKey t == k && t.patch != 0) := by
  unfold groupOf
  rw [extendG_patchTags]
  show [] ++ _ = _
  rw [List.nil_append]
  unfold keyFilter
  rw [List.filter_filter]
  rw [List.filter_congr (fun t _ => by rw [Bool.and_comm])]

/-- Every value stored in the final map is the canonical group of its key,
and that key occurs among the parsed tags. -/
theorem mem_buildGroups_values {ts : List ParsedTag} {g : RelGroup}
    (h : g ∈ (buildGroups ts).map Prod.snd) :
    (g.major, g.minor) ∈ ts.map tagKey ∧ g = groupOf ts (g.major, g.minor) := by
  obtain ⟨p, hmem, hsnd⟩ := List.mem_map.1 h
  obtain ⟨k, g'⟩ := p
  have hlook := lookupGroup_eq_some_of_mem hmem (buildGroups_keys_nodup ts)
  rw [lookupGroup_buildGroups] at hlook
  by_cases hk : k ∈ ts.map tagKey
  · rw [if_pos hk] at hlook
    have hgeq : g' = groupOf ts k := (Option.some.inj hlook).symm
    have hg : g = groupOf ts k := by rw [← hsnd]; exact hgeq
    have hkey : (g.major, g.minor) = k := by rw [hg, groupOf_major, groupOf_minor]
    refine ⟨?_, ?_⟩
    · rw [hkey]; exact hk
    · rw [hkey]; exact hg
  · rw [if_neg hk] at hlook
    cases hlook

/-- Membership in the filtered, sorted group list. -/
theorem mem_qualifyingSortedGroups {ts : List ParsedTag} {g : RelGroup} :
    g ∈ qualifyingSortedGroups ts ↔
      g ∈ (buildGroups ts).map Prod.snd ∧ g.releaseTag.isSome := by
  unfold qualifyingSortedGroups
  rw [(List.perm_insertionSort groupLE _).mem_iff, List.mem_filter]

/-- A qualifying group is the canonical group of its key, its key occurs,
and it owns a release tag. -/
theorem qualifying_group_spec {ts : List ParsedTag} {g : RelGroup}
    (h : g ∈ qualifyingSortedGroups ts) :
    (g.major, g.minor) ∈ ts.map tagKey ∧ g = groupOf ts (g.major, g.minor) ∧
      g.releaseTag.isSome := by
  obtain ⟨hv, hsome⟩ := mem_qualifyingSortedGroups.1 h
  obtain ⟨hk, hg⟩ := mem_buildGroups_values hv
  exact ⟨hk, hg, hsome⟩

/-- A group owns a release tag exactly when some tag of its key has
`patch == 0`. -/
theorem groupOf_releaseTag_isSome_iff (ts : List ParsedTag) (k : Nat × Nat) :
    (groupOf ts k).releaseTag.isSome ↔ ∃ t ∈ ts, tagKey t = k ∧ t.patch = 0 := by
  rw [groupOf_releaseTag]
  constructor
  · intro hs
    cases hf : ts.filter (fun t => tagKey t == k && t.patch == 0) with
    | nil => rw [hf] at hs; cases hs
    | cons t l =>
      have ht : t ∈ ts.filter (fun t => tagKey t == k && t.patch == 0) := by
        rw [hf]; exact List.mem_cons_self t l
      rw [List.mem_filter] at ht
      obtain ⟨hmem, hcond⟩ := ht
      simp only [Bool.and_eq_true, beq_iff_eq] at hcond
      exact ⟨t, hmem, hcond.1, hcond.2⟩
  · rintro ⟨t, hmem, hk, hp⟩
    have ht : t ∈ ts.filter (fun t => tagKey t == k && t.patch == 0) :=
      List.mem_filter.2 ⟨hmem, by simp [hk, hp]⟩
    cases hf : ts.filter (fun t => tagKey t == k && t.patch == 0) with
    | nil => rw [hf] at ht; cases ht
    | cons t' l => rfl

/-- The canonical group of a key with a `patch == 0` tag is in the
qualifying output. -/
theorem groupOf_mem_qualifying {ts : List ParsedTag} {k : Nat × Nat}
    (h : ∃ t ∈ ts, tagKey t = k ∧ t.patch = 0) :
    groupOf ts k ∈ qualifyingSortedGroups ts := by
  rw [mem_qualifyingSortedGroups]
  refine ⟨?_, (groupOf_releaseTag_isSome_iff ts k).2 h⟩
  have hkmem : k ∈ ts.map tagKey := by
    obtain ⟨t, hm, hk, _⟩ := h
    exact List.mem_map.2 ⟨t, hm, hk⟩
  have hlook := lookupGroup_buildGroups ts k
  rw [if_pos hkmem] at hlook
  exact List.mem_map.2 ⟨(k, groupOf ts k), mem_of_lookupGroup_eq_some hlook, rfl⟩

/-- `releases.reduce((sum, r) => sum + r.failedTags, 0)` sums the
`failedTags` entries. -/
theorem foldl_add_failedTags (rs : List CfrRelease) : ∀ a : Nat,
    rs.foldl (fun s r => s + r.failedTags) a = a + (rs.map CfrRelease.failedTags).sum := by
  induction rs with
  | nil => intro a; simp
  | cons r rs ih =>
    intro a
    rw [List.foldl_cons, ih, List.map_cons, List.sum_cons]
    omega

theorem qualifyingSortedGroups_sorted (ts : List ParsedTag) :
    List.Sorted groupLE (qualifyingSortedGroups ts) :=
  List.sorted_insertionSort groupLE _

theorem sortedPatchTags_sorted (g : RelGroup) :
    List.Sorted patchLE (sortedPatchTags g) :=
  List.sorted_insertionSort patchLE _

/-- Every stored pair's group carries exactly the pair's key as
`(major, minor)`. -/
theorem mem_buildGroups_pair_key {ts : List ParsedTag} :
    ∀ p ∈ buildGroups ts, (p.2.major, p.2.minor) = p.1 := by
  intro p hp
  obtain ⟨k, g⟩ := p
  have hlook := lookupGroup_eq_some_of_mem hp (buildGroups_keys_nodup ts)
  rw [lookupGroup_buildGroups] at hlook
  by_cases hk : k ∈ ts.map tagKey
  · rw [if_pos hk] at hlook
    have hg : g = groupOf ts k := (Option.some.inj hlook).symm
    show (g.major, g.minor) = k
    rw [hg, groupOf_major, groupOf_minor]
  · rw [if_neg hk] at hlook
    cases hlook

/-- Distinct groups of the output carry distinct `(major, minor)` keys. -/
theorem qualifyingSortedGroups_keys_nodup (ts : List ParsedTag) :
    ((qualifyingSortedGroups ts).map (fun g => (g.major, g.minor))).Nodup := by
  have hperm : (qualifyingSortedGroups ts).Perm
      (((buildGroups ts).map Prod.snd).filter (fun g => g.releaseTag.isSome)) :=
    List.perm_insertionSort groupLE _
  have hmapperm := hperm.map (fun g : RelGroup => (g.major, g.minor))
  rw [List.Perm.nodup_iff hmapperm]
  have hsub : (((buildGroups ts).map Prod.snd).filter
      (fun g => g.releaseTag.isSome)).Sublist ((buildGroups ts).map Prod.snd) :=
    List.filter_sublist _
  refine List.Nodup.sublist (hsub.map _) ?_
  have hmm : ((buildGroups ts).map Prod.snd).map (fun g : RelGroup => (g.major, g.minor)) =
      (buildGroups ts).map Prod.fst := by
    rw [List.map_map]
    exact List.map_congr_left mem_buildGroups_pair_key
  rw [hmm]
  exact buildGroups_keys_nodup ts

/-- Inserting an element of patch value `p` into a list places it before
every later element of the same patch value. -/
theorem filter_patch_orderedInsert_pos (p : Nat) (x : ParsedTag) (l : List ParsedTag)
    (hx : x.patch = p) :
    (List.orderedInsert patchLE x l).filter (fun t => t.patch == p) =
      x :: l.filter (fun t => t.patch == p) := by
  induction l with
  | nil => simp [List.orderedInsert, hx]
  | cons y l ih =>
    rw [List.orderedInsert]
    by_cases hr : patchLE x y
    · rw [if_pos hr, List.filter_cons, if_pos (by simp [hx])]
    · rw [if_neg hr]
      have hy : ¬ y.patch = p := by
        unfold patchLE at hr
        omega
      rw [List.filter_cons, if_neg (by simp [hy])]
      conv_rhs => rw [List.filter_cons, if_neg (by simp [hy])]
      exact ih

/-- Inserting an element of another patch value leaves the patch-`p`
subsequence unchanged. -/
theorem filter_patch_orderedInsert_neg (p : Nat) (x : ParsedTag) (l : List ParsedTag)
    (hx : ¬ x.patch = p) :
    (List.orderedInsert patchLE x l).filter (fun t => t.patch == p) =
      l.filter (fun t => t.patch == p) := by
  induction l with
  | nil => simp [List.orderedInsert, hx]
  | cons y l ih =>
    rw [List.orderedInsert]
    by_cases hr : patchLE x y
    · rw [if_pos hr, List.filter_cons, if_neg (by simp [hx])]
    · rw [if_neg hr]
      simp only [List.filter_cons]
      rw [ih]

/-- Stability of the patch sort: the subsequence of any fixed patch value
is exactly the input-order subsequence. -/
theorem filter_patch_insertionSort (l : List ParsedTag) (p : Nat) :
    (List.insertionSort patchLE l).filter (fun t => t.patch == p) =
      l.filter (fun t => t.patch == p) := by
  induction l with
  | nil => rfl
  | cons x l ih =>
    have hdef : List.insertionSort patchLE (x :: l) =
        List.orderedInsert patchLE x (List.insertionSort patchLE l) := rfl
    rw [hdef]
    by_cases hx : x.patch = p
    · rw [filter_patch_orderedInsert_pos p x _ hx, ih, List.filter_cons,
        if_pos (by simp [hx])]
    · rw [filter_patch_orderedInsert_neg p x _ hx, ih, List.filter_cons,
        if_neg (by simp [hx])]

/-! ### Properties of the rate helper -/

theorem round4_abs_le (q : ℚ) : |round4 q - q| ≤ 1 / 20000 := by
  have key : ∀ x : ℚ, |((round (x * 10000) : ℤ) : ℚ) / 10000 - x| ≤ 1 / 20000 := by
    intro x
    have hb := abs_sub_round (x * 10000)
    have heq : ((round (x * 10000) : ℤ) : ℚ) / 10000 - x
        = -((x * 10000 - ((round (x * 10000) : ℤ) : ℚ)) / 10000) := by ring
    rw [heq, abs_neg, abs_div, abs_of_pos (show (0:ℚ) < 10000 by norm_num)]
    linarith
  unfold round4
  by_cases h : 0 ≤ q
  · rw [if_pos h]
    exact key q
  · rw [if_neg h]
    have heq : -(((round (-q * 10000) : ℤ) : ℚ) / 10000) - q
        = -(((round (-q * 10000) : ℤ) : ℚ) / 10000 - (-q)) := by ring
    rw [heq, abs_neg]
    exact key (-q)

theorem rate_abs_le (f t : ℚ) (h : 0 < t) : |rate f t - f / t| ≤ 1 / 20000 := by
  unfold rate
  rw [if_neg (by linarith)]
  exact round4_abs_le (f / t)

theorem rate_of_nonpos (f t : ℚ) (h : t ≤ 0) : rate f t = 0 := by
  unfold rate
  rw [if_pos h]

theorem rate_two_of_three : rate 2 3 = 6667 / 10000 := by
  unfold rate round4
  rw [if_neg (by norm_num), if_pos (by positivity)]
  rw [round_eq]
  norm_num

/-! ### Surface shape of the computed result -/

theorem computeReleaseCfr_releases (tags : List String) (rx : String → Bool) :
    (computeReleaseCfr tags rx).releases =
      (qualifyingSortedGroups (parsedTagsOf tags rx)).map mkRelease := rfl

theorem computeReleaseCfr_totalReleases (tags : List String) (rx : String → Bool) :
    (computeReleaseCfr tags rx).totalReleases =
      (computeReleaseCfr tags rx).releases.length := rfl

theorem computeReleaseCfr_totalPatchFailures (tags : List String) (rx : String → Bool) :
    (computeReleaseCfr tags rx).totalPatchFailures =
      ((computeReleaseCfr tags rx).releases.map CfrRelease.failedTags).sum := by
  show ((qualifyingSortedGroups (parsedTagsOf tags rx)).map mkRelease).foldl
      (fun s r => s + r.failedTags) 0 = _
  rw [foldl_add_failedTags, Nat.zero_add]
  rfl

theorem computeReleaseCfr_changeFailureRate (tags : List String) (rx : String → Bool) :
    (computeReleaseCfr tags rx).changeFailureRate =
      rate ((computeReleaseCfr tags rx).totalPatchFailures : ℚ)
        (((computeReleaseCfr tags rx).totalReleases +
          (computeReleaseCfr tags rx).totalPatchFailures : ℕ) : ℚ) := rfl

theorem mkRelease_failedTags_eq_length (g : RelGroup) :
    (mkRelease g).failedTags = g.patchTags.length := by
  show ((sortedPatchTags g).map ParsedTag.name).length = _
  rw [List.length_map]
  exact (List.perm_insertionSort patchLE g.patchTags).length_eq

/-! ### The claims -/

/-- C1: every output release satisfies `failedTags = patchTags.length`,
`totalTags = 1 + patchTags.length` and
`changeFailureRate = rate failedTags totalTags`, and the top level
satisfies `totalReleases = releases.length`, `totalPatchFailures = sum of
failedTags`, and
`changeFailureRate = rate totalPatchFailures (totalReleases + totalPatchFailures)`,
with the same `rate` helper at both levels. -/
theorem cfr_C1 (tags : List String) (rx : String → Bool) :
    (∀ r ∈ (computeReleaseCfr tags rx).releases,
        r.failedTags = r.patchTags.length ∧
        r.totalTags = 1 + r.patchTags.length ∧
        r.changeFailureRate = rate (r.failedTags : ℚ) (r.totalTags : ℚ)) ∧
    (computeReleaseCfr tags rx).totalReleases =
      (computeReleaseCfr tags rx).releases.length ∧
    (computeReleaseCfr tags rx).totalPatchFailures =
      ((computeReleaseCfr tags rx).releases.map CfrRelease.failedTags).sum ∧
    (computeReleaseCfr tags rx).changeFailureRate =
      rate ((computeReleaseCfr tags rx).totalPatchFailures : ℚ)
        (((computeReleaseCfr tags rx).totalReleases +
          (computeReleaseCfr tags rx).totalPatchFailures : ℕ) : ℚ) := by
  refine ⟨?_, rfl, computeReleaseCfr_totalPatchFailures tags rx, rfl⟩
  intro r hr
  rw [computeReleaseCfr_releases] at hr
  obtain ⟨g, _, hg⟩ := List.mem_map.1 hr
  subst hg
  refine ⟨rfl, ?_, rfl⟩
  show (mkRelease g).failedTags + 1 = 1 + (mkRelease g).patchTags.length
  rw [Nat.add_comm]
  rfl

/-- C1 witness: the release computed from `["v1.0.0", "v1.0.1"]` under the
default pattern. -/
theorem cfr_C1_witness :
    (mkRelease ⟨1, 0, some "v1.0.0", [⟨"v1.0.1", 1, 0, 1⟩]⟩ ∈
      (computeReleaseCfr ["v1.0.0", "v1.0.1"] DEFAULT_VERSION_PATTERN).releases) ∧
    (mkRelease ⟨1, 0, some "v1.0.0", [⟨"v1.0.1", 1, 0, 1⟩]⟩).failedTags =
      (mkRelease ⟨1, 0, some "v1.0.0", [⟨"v1.0.1", 1, 0, 1⟩]⟩).patchTags.length := by
  have hrel : (computeReleaseCfr ["v1.0.0", "v1.0.1"] DEFAULT_VERSION_PATTERN).releases =
      [mkRelease ⟨1, 0, some "v1.0.0", [⟨"v1.0.1", 1, 0, 1⟩]⟩] := rfl
  have hmem : mkRelease ⟨1, 0, some "v1.0.0", [⟨"v1.0.1", 1, 0, 1⟩]⟩ ∈
      (computeReleaseCfr ["v1.0.0", "v1.0.1"] DEFAULT_VERSION_PATTERN).releases := by
    rw [hrel]
    exact List.mem_singleton_self _
  exact ⟨hmem,
    ((cfr_C1 ["v1.0.0", "v1.0.1"] DEFAULT_VERSION_PATTERN).1 _ hmem).1⟩

/-- C2: a `(major, minor)` group with no `patch == 0` tag contributes
nothing: no qualifying group carries its key, `totalPatchFailures` sums
only qualifying groups' patch-tag counts, and the concrete patch-only
stream `["v2.1.1", "v2.1.2"]` yields the all-zero result. -/
theorem cfr_C2 :
    (∀ (tags : List String) (rx : String → Bool) (m n : Nat),
      (∀ t ∈ parsedTagsOf tags rx, ¬(t.major = m ∧ t.minor = n ∧ t.patch = 0)) →
      ∀ g ∈ qualifyingSortedGroups (parsedTagsOf tags rx),
        ¬(g.major = m ∧ g.minor = n)) ∧
    (∀ (tags : List String) (rx : String → Bool),
      (computeReleaseCfr tags rx).totalPatchFailures =
        ((qualifyingSortedGroups (parsedTagsOf tags rx)).map
          (fun g => g.patchTags.length)).sum) ∧
    computeReleaseCfr ["v2.1.1", "v2.1.2"] DEFAULT_VERSION_PATTERN = ⟨0, 0, 0, []⟩ := by
  refine ⟨?_, ?_, rfl⟩
  · intro tags rx m n hnone g hg hkey
    obtain ⟨_, hspec, hsome⟩ := qualifying_group_spec hg
    rw [hspec] at hsome
    obtain ⟨t, hmem, hk, hp⟩ := (groupOf_releaseTag_isSome_iff _ _).1 hsome
    apply hnone t hmem
    unfold tagKey at hk
    rw [Prod.mk.injEq] at hk
    exact ⟨hkey.1 ▸ hk.1, hkey.2 ▸ hk.2, hp⟩
  · intro tags rx
    rw [computeReleaseCfr_totalPatchFailures, computeReleaseCfr_releases, List.map_map]
    congr 1
    exact List.map_congr_left (fun g _ => mkRelease_failedTags_eq_length g)

/-- C2 witness: `["v1.0.0", "v2.1.1"]` has no `(2, 1)` zero-patch tag, so
the qualifying group `(1, 0)` cannot carry key `(2, 1)`. -/
theorem cfr_C2_witness :
    ((⟨1, 0, some "v1.0.0", []⟩ : RelGroup) ∈ qualifyingSortedGroups
      (parsedTagsOf ["v1.0.0", "v2.1.1"] DEFAULT_VERSION_PATTERN)) ∧
    ¬((⟨1, 0, some "v1.0.0", []⟩ : RelGroup).major = 2 ∧
      (⟨1, 0, some "v1.0.0", []⟩ : RelGroup).minor = 1) :=
  ⟨by decide, cfr_C2.1 ["v1.0.0", "v2.1.1"] DEFAULT_VERSION_PATTERN 2 1
    (by decide) _ (by decide)⟩

/-- C3: in each qualifying group the `releaseTag` is the first
`patch == 0` tag in input order, the patch list contains no `patch == 0`
tag at all, keys are pairwise distinct (one release per group), and the
duplicate-release example keeps only the first duplicate. -/
theorem cfr_C3 :
    (∀ (tags : List String) (rx : String → Bool),
      ∀ g ∈ qualifyingSortedGroups (parsedTagsOf tags rx),
        g.releaseTag = (((parsedTagsOf tags rx).filter
            (fun t => tagKey t == (g.major, g.minor) && t.patch == 0)).head?).map
              ParsedTag.name ∧
        g.patchTags = (parsedTagsOf tags rx).filter
            (fun t => tagKey t == (g.major, g.minor) && t.patch != 0)) ∧
    (∀ (tags : List String) (rx : String → Bool),
      ((qualifyingSortedGroups (parsedTagsOf tags rx)).map
        (fun g => (g.major, g.minor))).Nodup) ∧
    (computeReleaseCfr ["v1.0.0", "v1.0.0-duplicate"]
        DEFAULT_VERSION_PATTERN).totalReleases = 1 ∧
    (computeReleaseCfr ["v1.0.0", "v1.0.0-duplicate"]
        DEFAULT_VERSION_PATTERN).totalPatchFailures = 0 ∧
    (computeReleaseCfr ["v1.0.0", "v1.0.0-duplicate"]
        DEFAULT_VERSION_PATTERN).releases.map CfrRelease.releaseTag = ["v1.0.0"] ∧
    (computeReleaseCfr ["v1.0.0", "v1.0.0-duplicate"]
        DEFAULT_VERSION_PATTERN).releases.map CfrRelease.patchTags = [[]] := by
  refine ⟨?_, ?_, by decide, by decide, by decide, by decide⟩
  · intro tags rx g hg
    obtain ⟨_, hspec, _⟩ := qualifying_group_spec hg
    constructor
    · conv_lhs => rw [hspec]
      exact groupOf_releaseTag _ _
    · conv_lhs => rw [hspec]
      exact groupOf_patchTags _ _
  · intro tags rx
    exact qualifyingSortedGroups_keys_nodup _

/-- C3 witness: the duplicate-release group of
`["v1.0.0", "v1.0.0-duplicate"]`. -/
theorem cfr_C3_witness :
    ((⟨1, 0, some "v1.0.0", []⟩ : RelGroup) ∈ qualifyingSortedGroups
      (parsedTagsOf ["v1.0.0", "v1.0.0-duplicate"] DEFAULT_VERSION_PATTERN)) ∧
    (⟨1, 0, some "v1.0.0", []⟩ : RelGroup).releaseTag =
      (((parsedTagsOf ["v1.0.0", "v1.0.0-duplicate"] DEFAULT_VERSION_PATTERN).filter
        (fun t => tagKey t == ((⟨1, 0, some "v1.0.0", []⟩ : RelGroup).major,
          (⟨1, 0, some "v1.0.0", []⟩ : RelGroup).minor) && t.patch == 0)).head?).map
            ParsedTag.name := by
  have hmem : (⟨1, 0, some "v1.0.0", []⟩ : RelGroup) ∈ qualifyingSortedGroups
      (parsedTagsOf ["v1.0.0", "v1.0.0-duplicate"] DEFAULT_VERSION_PATTERN) := by
    decide
  exact ⟨hmem,
    ((cfr_C3.1 ["v1.0.0", "v1.0.0-duplicate"] DEFAULT_VERSION_PATTERN _ hmem)).1⟩

/-- C4: the output ordering is deterministic: releases come from the
groups sorted ascending by `(major, minor)` (with pairwise-distinct
keys), each release's patch list is the group's patch tags sorted
ascending by patch number, and for every patch value the subsequence of
that value is exactly its input-order subsequence (stable sort). -/
theorem cfr_C4 (tags : List String) (rx : String → Bool) :
    List.Sorted groupLE (qualifyingSortedGroups (parsedTagsOf tags rx)) ∧
    ((qualifyingSortedGroups (parsedTagsOf tags rx)).map
      (fun g => (g.major, g.minor))).Nodup ∧
    (computeReleaseCfr tags rx).releases =
      (qualifyingSortedGroups (parsedTagsOf tags rx)).map mkRelease ∧
    (∀ g ∈ qualifyingSortedGroups (parsedTagsOf tags rx),
      List.Sorted patchLE (sortedPatchTags g) ∧
      (mkRelease g).patchTags = (sortedPatchTags g).map ParsedTag.name ∧
      (∀ p : Nat, (sortedPatchTags g).filter (fun t => t.patch == p) =
        ((parsedTagsOf tags rx).filter
          (fun t => tagKey t == (g.major, g.minor) && t.patch != 0)).filter
            (fun t => t.patch == p))) := by
  refine ⟨qualifyingSortedGroups_sorted _, qualifyingSortedGroups_keys_nodup _, rfl, ?_⟩
  intro g hg
  obtain ⟨_, hspec, _⟩ := qualifying_group_spec hg
  refine ⟨sortedPatchTags_sorted g, rfl, ?_⟩
  intro p
  have hstable := filter_patch_insertionSort g.patchTags p
  have hpatch : g.patchTags = (parsedTagsOf tags rx).filter
      (fun t => tagKey t == (g.major, g.minor) && t.patch != 0) := by
    conv_lhs => rw [hspec]
    exact groupOf_patchTags _ _
  rw [show sortedPatchTags g = List.insertionSort patchLE g.patchTags from rfl,
    hstable, hpatch]

/-- C4 witness: the group of `["v1.0.0", "v1.0.2", "v1.0.1"]`. -/
theorem cfr_C4_witness :
    ((⟨1, 0, some "v1.0.0", [⟨"v1.0.2", 1, 0, 2⟩, ⟨"v1.0.1", 1, 0, 1⟩]⟩ : RelGroup) ∈
      qualifyingSortedGroups
        (parsedTagsOf ["v1.0.0", "v1.0.2", "v1.0.1"] DEFAULT_VERSION_PATTERN)) ∧
    List.Sorted patchLE (sortedPatchTags
      (⟨1, 0, some "v1.0.0", [⟨"v1.0.2", 1, 0, 2⟩, ⟨"v1.0.1", 1, 0, 1⟩]⟩ : RelGroup)) := by
  have hmem : (⟨1, 0, some "v1.0.0",
      [⟨"v1.0.2", 1, 0, 2⟩, ⟨"v1.0.1", 1, 0, 1⟩]⟩ : RelGroup) ∈
      qualifyingSortedGroups
        (parsedTagsOf ["v1.0.0", "v1.0.2", "v1.0.1"] DEFAULT_VERSION_PATTERN) := by
    decide
  exact ⟨hmem,
    ((cfr_C4 ["v1.0.0", "v1.0.2", "v1.0.1"] DEFAULT_VERSION_PATTERN).2.2.2 _ hmem).1⟩

/-- C5: parsing is two-stage: failing the acceptance pattern rejects
immediately; matching it but lacking a structural `v?major.minor.patch`
prefix also rejects; rejection is a silent `none`; and in the concrete
scenario `build-123` is dropped while `v1.0.1-hotfix` parses to
`(1, 0, 1)` and lands in the `1.0.0` release's `patchTags`. -/
theorem cfr_C5 :
    (∀ (rx : String → Bool) (tag : String), rx tag = false →
      parseSemverTag tag rx = none) ∧
    (∀ (rx : String → Bool) (tag : String), semverPrefixMatch tag = none →
      parseSemverTag tag rx = none) ∧
    (∀ (rx : String → Bool) (tag : String) (t : ParsedTag),
      parseSemverTag tag rx = some t →
      rx tag = true ∧ semverPrefixMatch tag = some (t.major, t.minor, t.patch) ∧
        t.name = tag) ∧
    parseSemverTag "build-123" DEFAULT_VERSION_PATTERN = none ∧
    parseSemverTag "v1.0.1-hotfix" DEFAULT_VERSION_PATTERN =
      some ⟨"v1.0.1-hotfix", 1, 0, 1⟩ ∧
    (computeReleaseCfr ["v1.0.0", "build-123", "v1.0.1-hotfix"]
      DEFAULT_VERSION_PATTERN).releases.map CfrRelease.patchTags =
        [["v1.0.1-hotfix"]] ∧
    (computeReleaseCfr ["v1.0.0", "build-123", "v1.0.1-hotfix"]
      DEFAULT_VERSION_PATTERN).releases.map CfrRelease.version = ["1.0.0"] := by
  refine ⟨?_, ?_, ?_, by decide, by decide, by decide, by decide⟩
  · intro rx tag h
    unfold parseSemverTag
    rw [h]
    rfl
  · intro rx tag h
    unfold parseSemverTag
    rw [h]
    split <;> rfl
  · intro rx tag t h
    unfold parseSemverTag at h
    by_cases hrx : rx tag
    · rw [if_pos hrx] at h
      cases hm : semverPrefixMatch tag with
      | none => rw [hm] at h; cases h
      | some v =>
        obtain ⟨a, b, c⟩ := v
        rw [hm] at h
        cases h
        exact ⟨hrx, rfl, rfl⟩
    · rw [if_neg hrx] at h
      cases h

/-- C5 witness: an always-rejecting acceptance pattern rejects `v1.0.0`. -/
theorem cfr_C5_witness :
    ((fun _ : String => false) "v1.0.0" = false) ∧
    parseSemverTag "v1.0.0" (fun _ => false) = none :=
  ⟨rfl, cfr_C5.1 (fun _ => false) "v1.0.0" rfl⟩

/-- C6: for positive totals the computed rate is within `0.00005` of the
exact ratio (4-decimal rounding), and any non-positive total yields
exactly `0` (total function, no division fault). -/
theorem cfr_C6 (failed total : ℚ) :
    (0 < total → |rate failed total - failed / total| ≤ 1 / 20000) ∧
    (total ≤ 0 → rate failed total = 0) :=
  ⟨fun h => rate_abs_le failed total h, fun h => rate_of_nonpos failed total h⟩

/-- C6 witness: `rate 2 3` is within `0.00005` of `2 / 3`. -/
theorem cfr_C6_witness :
    (0 < (3 : ℚ)) ∧ |rate 2 3 - 2 / 3| ≤ 1 / 20000 :=
  ⟨by norm_num, (cfr_C6 2 3).1 (by norm_num)⟩

/-- C7: for `["v1.0.0", "v1.0.1", "v1.0.2"]` under the default pattern:
one release, two patch failures, overall rate `0.6667` (`2/3` rounded to
4 decimals), and the single release has `failedTags = 2`,
`totalTags = 3`. -/
theorem cfr_C7 :
    (computeReleaseCfr ["v1.0.0", "v1.0.1", "v1.0.2"]
      DEFAULT_VERSION_PATTERN).totalReleases = 1 ∧
    (computeReleaseCfr ["v1.0.0", "v1.0.1", "v1.0.2"]
      DEFAULT_VERSION_PATTERN).totalPatchFailures = 2 ∧
    (computeReleaseCfr ["v1.0.0", "v1.0.1", "v1.0.2"]
      DEFAULT_VERSION_PATTERN).changeFailureRate = 6667 / 10000 ∧
    (computeReleaseCfr ["v1.0.0", "v1.0.1", "v1.0.2"]
      DEFAULT_VERSION_PATTERN).releases.map CfrRelease.failedTags = [2] ∧
    (computeReleaseCfr ["v1.0.0", "v1.0.1", "v1.0.2"]
      DEFAULT_VERSION_PATTERN).releases.map CfrRelease.totalTags = [3] := by
  refine ⟨by decide, by decide, ?_, by decide, by decide⟩
  have h : (computeReleaseCfr ["v1.0.0", "v1.0.1", "v1.0.2"]
      DEFAULT_VERSION_PATTERN).changeFailureRate = rate ((2 : ℕ) : ℚ) ((3 : ℕ) : ℚ) := rfl
  rw [h, Nat.cast_ofNat, Nat.cast_ofNat, rate_two_of_three]

/-- C8: the computation is a total function; whenever zero qualifying
groups arise — in particular for the empty tag list — the result is
exactly the all-zero `RepoCfrResult`. -/
theorem cfr_C8 (tags : List String) (rx : String → Bool) :
    (qualifyingSortedGroups (parsedTagsOf tags rx) = [] →
      computeReleaseCfr tags rx = ⟨0, 0, 0, []⟩) ∧
    computeReleaseCfr [] rx = ⟨0, 0, 0, []⟩ := by
  constructor
  · intro h
    show assembleResult (qualifyingSortedGroups (parsedTagsOf tags rx)) = _
    rw [h]
    rfl
  · rfl

/-- C8 witness: a repository whose only tag fails the pattern yields the
all-zero result. -/
theorem cfr_C8_witness :
    qualifyingSortedGroups
      (parsedTagsOf ["build-123"] DEFAULT_VERSION_PATTERN) = [] ∧
    computeReleaseCfr ["build-123"] DEFAULT_VERSION_PATTERN = ⟨0, 0, 0, []⟩ :=
  ⟨by decide, (cfr_C8 ["build-123"] DEFAULT_VERSION_PATTERN).1 (by decide)⟩

/-- C9: duplicate patch tags are not deduplicated: a qualifying group's
`failedTags` counts every parsed `patch != 0` tag occurrence of its key,
and for `["v1.0.0", "v1.0.1", "v1.0.1"]` the release has `failedTags = 2`
with both duplicate names in `patchTags`. -/
theorem cfr_C9 :
    (∀ (tags : List String) (rx : String → Bool),
      ∀ g ∈ qualifyingSortedGroups (parsedTagsOf tags rx),
        (mkRelease g).failedTags =
          ((parsedTagsOf tags rx).filter
            (fun t => tagKey t == (g.major, g.minor) && t.patch != 0)).length) ∧
    (computeReleaseCfr ["v1.0.0", "v1.0.1", "v1.0.1"]
      DEFAULT_VERSION_PATTERN).releases.map CfrRelease.failedTags = [2] ∧
    (computeReleaseCfr ["v1.0.0", "v1.0.1", "v1.0.1"]
      DEFAULT_VERSION_PATTERN).releases.map CfrRelease.patchTags =
        [["v1.0.1", "v1.0.1"]] := by
  refine ⟨?_, by decide, by decide⟩
  intro tags rx g hg
  obtain ⟨_, hspec, _⟩ := qualifying_group_spec hg
  rw [mkRelease_failedTags_eq_length]
  conv_lhs => rw [hspec]
  rw [groupOf_patchTags]

/-- C9 witness: the duplicated-patch group of
`["v1.0.0", "v1.0.1", "v1.0.1"]`. -/
theorem cfr_C9_witness :
    ((⟨1, 0, some "v1.0.0", [⟨"v1.0.1", 1, 0, 1⟩, ⟨"v1.0.1", 1, 0, 1⟩]⟩ : RelGroup) ∈
      qualifyingSortedGroups
        (parsedTagsOf ["v1.0.0", "v1.0.1", "v1.0.1"] DEFAULT_VERSION_PATTERN)) ∧
    (mkRelease (⟨1, 0, some "v1.0.0",
        [⟨"v1.0.1", 1, 0, 1⟩, ⟨"v1.0.1", 1, 0, 1⟩]⟩ : RelGroup)).failedTags =
      ((parsedTagsOf ["v1.0.0", "v1.0.1", "v1.0.1"] DEFAULT_VERSION_PATTERN).filter
        (fun t => tagKey t == ((⟨1, 0, some "v1.0.0",
            [⟨"v1.0.1", 1, 0, 1⟩, ⟨"v1.0.1", 1, 0, 1⟩]⟩ : RelGroup).major,
          (⟨1, 0, some "v1.0.0",
            [⟨"v1.0.1", 1, 0, 1⟩, ⟨"v1.0.1", 1, 0, 1⟩]⟩ : RelGroup).minor) &&
          t.patch != 0)).length := by
  have hmem : (⟨1, 0, some "v1.0.0",
      [⟨"v1.0.1", 1, 0, 1⟩, ⟨"v1.0.1", 1, 0, 1⟩]⟩ : RelGroup) ∈
      qualifyingSortedGroups
        (parsedTagsOf ["v1.0.0", "v1.0.1", "v1.0.1"] DEFAULT_VERSION_PATTERN) := by
    decide
  exact ⟨hmem,
    cfr_C9.1 ["v1.0.0", "v1.0.1", "v1.0.1"] DEFAULT_VERSION_PATTERN _ hmem⟩

/-- C10: classification does not depend on where the `patch == 0` tag
sits relative to its group's patch tags: any parsed `patch == 0` tag of
key `(m, n)` — wherever it occurs — puts the canonical `(m, n)` group in
the qualifying output, and every qualifying group conversely owns some
`patch == 0` tag of its key in the parsed input; for
`["v1.0.1", "v1.0.0"]` the late release tag still yields one release and
one counted failure. -/
theorem cfr_C10 :
    (∀ (tags : List String) (rx : String → Bool) (m n : Nat) (t : ParsedTag),
      t ∈ parsedTagsOf tags rx → t.major = m → t.minor = n → t.patch = 0 →
        groupOf (parsedTagsOf tags rx) (m, n) ∈
          qualifyingSortedGroups (parsedTagsOf tags rx) ∧
        (groupOf (parsedTagsOf tags rx) (m, n)).major = m ∧
        (groupOf (parsedTagsOf tags rx) (m, n)).minor = n) ∧
    (∀ (tags : List String) (rx : String → Bool),
      ∀ g ∈ qualifyingSortedGroups (parsedTagsOf tags rx),
        (parsedTagsOf tags rx).filter
          (fun t => tagKey t == (g.major, g.minor) && t.patch == 0) ≠ []) ∧
    (computeReleaseCfr ["v1.0.1", "v1.0.0"]
      DEFAULT_VERSION_PATTERN).totalReleases = 1 ∧
    (computeReleaseCfr ["v1.0.1", "v1.0.0"]
      DEFAULT_VERSION_PATTERN).totalPatchFailures = 1 := by
  refine ⟨?_, ?_, by decide, by decide⟩
  · intro tags rx m n t hmem hm hn hp
    refine ⟨?_, groupOf_major _ _, groupOf_minor _ _⟩
    exact groupOf_mem_qualifying ⟨t, hmem, by unfold tagKey; rw [hm, hn], hp⟩
  · intro tags rx g hg
    obtain ⟨_, hspec, hsome⟩ := qualifying_group_spec hg
    rw [hspec, groupOf_releaseTag] at hsome
    intro hnil
    rw [hnil] at hsome
    cases hsome

/-- C10 witness: `["v1.0.1", "v1.0.0"]` has a `(1, 0)` zero-patch tag in
second position, and the `(1, 0)` group qualifies. -/
theorem cfr_C10_witness :
    ((⟨"v1.0.0", 1, 0, 0⟩ : ParsedTag) ∈
      parsedTagsOf ["v1.0.1", "v1.0.0"] DEFAULT_VERSION_PATTERN) ∧
    groupOf (parsedTagsOf ["v1.0.1", "v1.0.0"] DEFAULT_VERSION_PATTERN) (1, 0) ∈
      qualifyingSortedGroups
        (parsedTagsOf ["v1.0.1", "v1.0.0"] DEFAULT_VERSION_PATTERN) :=
  ⟨by decide, (cfr_C10.1 ["v1.0.1", "v1.0.0"] DEFAULT_VERSION_PATTERN 1 0
    ⟨"v1.0.0", 1, 0, 0⟩ (by decide) rfl rfl rfl).1⟩

end Cfr
